import Mathlib

/-!
Verification of the pixel-sorting core of `porter` (src/main.rs).

The Rust source is shallowly embedded: RGBA pixels become a structure of four
natural-number channels (the program only ever feeds 8-bit values), `u16`
arithmetic that cannot wrap is carried out on `Nat`, the `f32` arithmetic of
the hue/saturation evaluators is modelled by exact rational arithmetic with
the same branch structure and the final `as u16` truncation modelled by
`Int.toNat ∘ Int.floor`, and the `panic!("how?")` branch of `hue` is modelled
by `Option.none`.  `Vec<T>` becomes `List`, and the in-place writes of
`sort_image` become functional list surgery over the same flat, row-major
index arithmetic `yi * width + xi` used by the source.
-/

namespace Porter

/-- `egui::Color32`: four 8-bit channels red, green, blue, alpha. -/
structure Color32 where
  r : Nat
  g : Nat
  b : Nat
  a : Nat
deriving DecidableEq, Repr

/-- Out-of-bounds default used by `List.getD`; index arithmetic stays in
bounds in every proof, so this value never surfaces. -/
def defaultPixel : Color32 := ⟨0, 0, 0, 0⟩

/-- `enum SortBy` (src/main.rs lines 8-12). -/
inductive SortBy where
  | Luminance
  | Hue
  | Saturation
deriving DecidableEq, Repr

/-- `threshold_upper_boundary` (src/main.rs lines 14-19). -/
def threshold_upper_boundary : SortBy → Nat
  | SortBy.Luminance | SortBy.Saturation => 255
  | SortBy.Hue => 360

/-- `luminance` (src/main.rs lines 21-23): `u16` mean of the colour channels.
The sum of three 8-bit channels is at most 765, so `u16` addition and
division agree with `Nat` arithmetic. -/
def luminance (pixel : Color32) : Nat :=
  (pixel.r + pixel.g + pixel.b) / 3

/-- `blue.min(red.min(green))` of `hue` (src/main.rs line 30), on exact
rationals in place of `f32`; channel values are integers, so `f32`
represents them and their min/max exactly. -/
def chanMin (pixel : Color32) : ℚ :=
  min (pixel.b : ℚ) (min (pixel.r : ℚ) (pixel.g : ℚ))

/-- `blue.max(red.max(green))` of `hue` (src/main.rs line 31). -/
def chanMax (pixel : Color32) : ℚ :=
  max (pixel.b : ℚ) (max (pixel.r : ℚ) (pixel.g : ℚ))

/-- `hue` (src/main.rs lines 25-48).  The `f32` arithmetic is modelled by
exact rational arithmetic; the six-sector branch structure, the early
achromatic return, the `+ 360` wrap of a negative result and the truncating
`as u16` cast (`Int.toNat ⌊·⌋`, which like the Rust cast sends negative
values to 0) are kept.  The `panic!("how?")` branch becomes `none`. -/
def hue? (pixel : Color32) : Option Nat :=
  if chanMax pixel = chanMin pixel then
    some 0
  else
    (if chanMax pixel = (pixel.r : ℚ) then
        some ((((pixel.g : ℚ) - (pixel.b : ℚ)) / (chanMax pixel - chanMin pixel)) * 60)
      else if chanMax pixel = (pixel.g : ℚ) then
        some ((2 + ((pixel.b : ℚ) - (pixel.r : ℚ)) / (chanMax pixel - chanMin pixel)) * 60)
      else if chanMax pixel = (pixel.b : ℚ) then
        some ((4 + ((pixel.r : ℚ) - (pixel.g : ℚ)) / (chanMax pixel - chanMin pixel)) * 60)
      else
        none).map
      (fun h => Int.toNat ⌊if h < 0 then h + 360 else h⌋)

/-- Total wrapper for `hue?`; `hue?_total` below shows the default is never
used. -/
def hue (pixel : Color32) : Nat :=
  (hue? pixel).getD 0

/-- `saturation` (src/main.rs lines 50-66), `f32` modelled by exact
rationals, `as u16` by `Int.toNat ∘ Int.floor`. -/
def saturation (pixel : Color32) : Nat :=
  if chanMax pixel / 255 = chanMin pixel / 255 then
    0
  else
    Int.toNat
      ⌊(1 - |2 * ((chanMax pixel / 255 + chanMin pixel / 255) / 2) - 1|) * 255⌋

/-- The `match sorting_method` dispatch of `sort_image`
(src/main.rs lines 97-101). -/
def pixel_property : SortBy → (Color32 → Nat)
  | SortBy.Hue => hue
  | SortBy.Saturation => saturation
  | SortBy.Luminance => luminance

/-- `(lower_threshold..=higher_threshold).contains(&value)`
(src/main.rs lines 109-110). -/
def accepts (lower upper v : Nat) : Bool :=
  decide (lower ≤ v) && decide (v ≤ upper)

/-- Loop of `into_intervals` (src/main.rs lines 72-79): `i` is the current
index, the `Option Nat` is `interval_start`.  The trailing-run emission of
lines 81-83 is the base case. -/
def intervalsAux : List Bool → Nat → Option Nat → List (Nat × Nat)
  | [], _, none => []
  | [], i, some s => [(s, i)]
  | bit :: rest, i, none =>
      if bit then intervalsAux rest (i + 1) (some i)
      else intervalsAux rest (i + 1) none
  | bit :: rest, i, some s =>
      if bit then intervalsAux rest (i + 1) (some s)
      else (s, i) :: intervalsAux rest (i + 1) none

/-- `into_intervals` (src/main.rs lines 68-86). -/
def into_intervals (bitmap : List Bool) : List (Nat × Nat) :=
  intervalsAux bitmap 0 none

/-- The half-open segment `[s, e)` of a list. -/
def listSlice (l : List Color32) (s e : Nat) : List Color32 :=
  (l.drop s).take (e - s)

/-- `pixels.sort_by(|a, b| pixel_property(&a).cmp(&pixel_property(&b)))`
(src/main.rs line 122).  Rust's `sort_by` is a stable sort; a stable sort's
output is uniquely determined by sortedness, the permutation property and
stability, and `List.insertionSort` on `key · ≤ key ·` has all three
(proved below), so it is an exact model. -/
def sortRun (key : Color32 → Nat) (l : List Color32) : List Color32 :=
  List.insertionSort (fun x y => key x ≤ key y) l

/-- Processing of one interval by `sort_image` (src/main.rs lines 116-128):
copy out the pixels of columns `[iv.1, iv.2)` of the row starting at flat
index `off`, stably sort them by the scalar key, write them back over the
same positions. -/
def sortInterval (key : Color32 → Nat) (off : Nat) (px : List Color32)
    (iv : Nat × Nat) : List Color32 :=
  px.take (off + iv.1) ++
    sortRun key ((px.drop (off + iv.1)).take (iv.2 - iv.1)) ++
    px.drop (off + iv.1 + (sortRun key ((px.drop (off + iv.1)).take (iv.2 - iv.1))).length)

/-- The acceptance bitmap of row `yi` (src/main.rs lines 104-111). -/
def rowBitmap (key : Color32 → Nat) (lower upper : Nat) (px : List Color32)
    (w yi : Nat) : List Bool :=
  (List.range w).map fun xi =>
    accepts lower upper (key (px.getD (yi * w + xi) defaultPixel))

/-- The body of the `for yi in 0..height` loop of `sort_image`
(src/main.rs lines 103-129). -/
def sortRowAt (key : Color32 → Nat) (lower upper w : Nat) (px : List Color32)
    (yi : Nat) : List Color32 :=
  (into_intervals (rowBitmap key lower upper px w yi)).foldl
    (sortInterval key (yi * w)) px

/-- `egui::ColorImage`: a row-major flat pixel buffer with its dimensions. -/
structure ColorImage where
  width : Nat
  height : Nat
  pixels : List Color32
deriving DecidableEq, Repr

/-- `sort_image` (src/main.rs lines 88-130). -/
def sort_image (lower_threshold higher_threshold : Nat) (image : ColorImage)
    (sorting_method : SortBy) : ColorImage :=
  { image with
    pixels :=
      (List.range image.height).foldl
        (sortRowAt (pixel_property sorting_method) lower_threshold
          higher_threshold image.width)
        image.pixels }

/-- The threshold validation of `main` (src/main.rs lines 174-177): on
`lower > higher` the CLI prints an error and exits with code 1 before any
image is processed. -/
def mainThresholdGuard (lower_threshold higher_threshold : Nat) : Except Nat Unit :=
  if lower_threshold > higher_threshold then Except.error 1 else Except.ok ()

/-- The batch loop of `main` (src/main.rs lines 179-205), with file I/O
abstracted: a list entry is `(some image, saveOk)` when
`load_image_from_path` succeeded for that path (`saveOk` telling whether the
later `image::save_buffer` of the sorted image will succeed), and
`(none, _)` when the load failed.  On a failed load `main` logs the error
and calls `std::process::exit(1)` immediately, so no later path is
processed.  On a successful load the image is sorted and saved; a failed
save hits `save_buffer(...).expect(...)` (lines 197-204), which panics and
aborts the process with the Rust panic exit code 101, also before any later
path is processed.  Falling off the end of `main` exits with code 0.
Returns the list of sorted images actually saved and the process exit
code. -/
def processBatch (lower higher : Nat) (method : SortBy) :
    List (Option ColorImage × Bool) → List ColorImage × Nat
  | [] => ([], 0)
  | (none, _) :: _ => ([], 1)
  | (some img, saveOk) :: rest =>
      if saveOk then
        ((sort_image lower higher img method) ::
            (processBatch lower higher method rest).1,
          (processBatch lower higher method rest).2)
      else
        ([], 101)

/-- Concrete 2×1 image (luminance keys 10 and 2) used to instantiate
theorems on explicit inputs. -/
def imgA : ColorImage := ⟨2, 1, [⟨10, 10, 10, 200⟩, ⟨2, 2, 2, 100⟩]⟩

/-- Concrete 1×1 image. -/
def imgB : ColorImage := ⟨1, 1, [⟨30, 30, 30, 50⟩]⟩

/-- Concrete 3×1 image with luminance keys `[200, 50, 10]`. -/
def imgC : ColorImage := ⟨3, 1, [⟨200, 200, 200, 1⟩, ⟨50, 50, 50, 2⟩, ⟨10, 10, 10, 3⟩]⟩

/-- Concrete 4×1 image with duplicated luminance keys `[9, 5, 9, 5]`,
distinguishable by alpha, to exercise sort stability. -/
def imgD : ColorImage :=
  ⟨4, 1, [⟨9, 9, 9, 1⟩, ⟨5, 5, 5, 2⟩, ⟨9, 9, 9, 3⟩, ⟨5, 5, 5, 4⟩]⟩

/-- Concrete 3×1 image with luminance keys `[10, 200, 5]`: with thresholds
`[0, 50]` the middle pixel is rejected and the mask is `[true, false, true]`. -/
def imgE : ColorImage := ⟨3, 1, [⟨10, 10, 10, 7⟩, ⟨200, 200, 200, 8⟩, ⟨5, 5, 5, 9⟩]⟩

/-! ### Generic list lemmas (stated over `getD` so that all index reasoning
is unconditional) -/

theorem getD_append' {α : Type _} (l₁ l₂ : List α) (j : Nat) (d : α) :
    (l₁ ++ l₂).getD j d =
      if j < l₁.length then l₁.getD j d else l₂.getD (j - l₁.length) d := by
  induction l₁ generalizing j with
  | nil => simp
  | cons a l ih =>
    cases j with
    | zero => simp
    | succ j => simpa [Nat.succ_lt_succ_iff, Nat.succ_sub_succ] using ih j

theorem getD_take' {α : Type _} :
    ∀ (l : List α) (n j : Nat) (d : α), j < n → (l.take n).getD j d = l.getD j d := by
  intro l
  induction l with
  | nil => simp
  | cons a l ih =>
    intro n j d hj
    cases n with
    | zero => omega
    | succ n =>
      cases j with
      | zero => simp
      | succ j => simpa using ih n j d (by omega)

theorem getD_drop' {α : Type _} :
    ∀ (l : List α) (n j : Nat) (d : α), (l.drop n).getD j d = l.getD (n + j) d := by
  intro l
  induction l with
  | nil => simp
  | cons a l ih =>
    intro n j d
    cases n with
    | zero => simp
    | succ n =>
      have : n + 1 + j = (n + j) + 1 := by omega
      simpa [this] using ih n j d

theorem getD_eq_default' {α : Type _} :
    ∀ (l : List α) (j : Nat) (d : α), l.length ≤ j → l.getD j d = d := by
  intro l
  induction l with
  | nil => simp
  | cons a l ih =>
    intro j d hj
    cases j with
    | zero => simp at hj
    | succ j => simpa using ih j d (by simpa using Nat.succ_le_succ_iff.mp hj)

theorem getD_mem' {α : Type _} :
    ∀ (l : List α) (j : Nat) (d : α), j < l.length → l.getD j d ∈ l := by
  intro l
  induction l with
  | nil => simp
  | cons a l ih =>
    intro j d hj
    cases j with
    | zero => simp
    | succ j => simpa using Or.inr (ih j d (by simpa using Nat.succ_lt_succ_iff.mp hj))

theorem ext_getD' {α : Type _} :
    ∀ (l₁ l₂ : List α) (d : α), l₁.length = l₂.length →
      (∀ j, j < l₁.length → l₁.getD j d = l₂.getD j d) → l₁ = l₂ := by
  intro l₁
  induction l₁ with
  | nil =>
    intro l₂ d hlen _
    cases l₂ with
    | nil => rfl
    | cons b l₂ => simp at hlen
  | cons a l₁ ih =>
    intro l₂ d hlen h
    cases l₂ with
    | nil => simp at hlen
    | cons b l₂ =>
      have h0 : a = b := by simpa using h 0 (by simp)
      have htl : l₁ = l₂ :=
        ih l₂ d (by simpa using hlen) fun j hj => by simpa using h (j + 1) (by simpa using hj)
      rw [h0, htl]

theorem getD_eq_get' {α : Type _} :
    ∀ (l : List α) (j : Nat) (d : α) (h : j < l.length), l.getD j d = l.get ⟨j, h⟩ := by
  intro l
  induction l with
  | nil => intro j d h; simp at h
  | cons a l ih =>
    intro j d h
    cases j with
    | zero => simp
    | succ j => simpa using ih j d (by simpa using Nat.succ_lt_succ_iff.mp h)

theorem listSlice_length (l : List Color32) (s e : Nat) :
    (listSlice l s e).length = min (e - s) (l.length - s) := by
  simp [listSlice]

theorem getD_listSlice (l : List Color32) (s e k : Nat) (d : Color32) (hk : k < e - s) :
    (listSlice l s e).getD k d = l.getD (s + k) d := by
  unfold listSlice
  rw [getD_take' _ _ _ _ hk, getD_drop']

theorem listSlice_congr (l l' : List Color32) (s e : Nat) (hlen : l.length = l'.length)
    (h : ∀ j, s ≤ j → j < e → l.getD j defaultPixel = l'.getD j defaultPixel) :
    listSlice l s e = listSlice l' s e := by
  apply ext_getD' _ _ defaultPixel
  · simp [listSlice_length, hlen]
  · intro k hk
    rw [listSlice_length] at hk
    have hk' : k < e - s := by omega
    rw [getD_listSlice _ _ _ _ _ hk', getD_listSlice _ _ _ _ _ hk']
    exact h (s + k) (by omega) (by omega)

theorem mem_listSlice (l : List Color32) (s e : Nat) (p : Color32)
    (hp : p ∈ listSlice l s e) :
    ∃ k, k < e - s ∧ s + k < l.length ∧ l.getD (s + k) defaultPixel = p := by
  obtain ⟨⟨k, hk⟩, hget⟩ := List.mem_iff_get.mp hp
  have hk' := hk
  rw [listSlice_length] at hk'
  have h1 : k < e - s := lt_of_lt_of_le hk' (min_le_left _ _)
  have h2 : k < l.length - s := lt_of_lt_of_le hk' (min_le_right _ _)
  refine ⟨k, h1, by omega, ?_⟩
  calc l.getD (s + k) defaultPixel
      = (listSlice l s e).getD k defaultPixel := (getD_listSlice _ _ _ _ _ h1).symm
    _ = (listSlice l s e).get ⟨k, hk⟩ := getD_eq_get' _ _ _ hk
    _ = p := hget

/-! ### Segmenter lemmas -/

theorem intervalsAux_bounds :
    ∀ (l : List Bool) (i : Nat) (st : Option Nat), (∀ s, st = some s → s < i) →
      ∀ p ∈ intervalsAux l i st, st.getD i ≤ p.1 ∧ p.1 < p.2 ∧ p.2 ≤ i + l.length := by
  intro l
  induction l with
  | nil =>
    intro i st hwf p hp
    cases st with
    | none => simp [intervalsAux] at hp
    | some s =>
      simp [intervalsAux] at hp
      subst hp
      exact ⟨le_refl _, hwf s rfl, by simp⟩
  | cons bit rest ih =>
    intro i st hwf p hp
    cases st with
    | none =>
      by_cases hb : bit = true
      · rw [show intervalsAux (bit :: rest) i none = intervalsAux rest (i + 1) (some i) by
          simp [intervalsAux, hb]] at hp
        have := ih (i + 1) (some i) (by intro s hs; cases hs; omega) p hp
        simp only [Option.getD] at this ⊢
        refine ⟨by omega, this.2.1, by simpa [Nat.add_comm, Nat.add_left_comm] using this.2.2⟩
      · rw [show intervalsAux (bit :: rest) i none = intervalsAux rest (i + 1) none by
          simp [intervalsAux, hb]] at hp
        have := ih (i + 1) none (by simp) p hp
        simp only [Option.getD] at this ⊢
        exact ⟨by omega, this.2.1, by simp at this ⊢; omega⟩
    | some s =>
      have hs : s < i := hwf s rfl
      by_cases hb : bit = true
      · rw [show intervalsAux (bit :: rest) i (some s) = intervalsAux rest (i + 1) (some s) by
          simp [intervalsAux, hb]] at hp
        have := ih (i + 1) (some s) (by intro s' hs'; cases hs'; omega) p hp
        simp only [Option.getD] at this ⊢
        exact ⟨this.1, this.2.1, by simp at this ⊢; omega⟩
      · rw [show intervalsAux (bit :: rest) i (some s) =
            (s, i) :: intervalsAux rest (i + 1) none by simp [intervalsAux, hb]] at hp
        rcases List.mem_cons.mp hp with hp | hp
        · subst hp
          exact ⟨le_refl _, hs, by simp⟩
        · have := ih (i + 1) none (by simp) p hp
          simp only [Option.getD] at this ⊢
          exact ⟨by omega, this.2.1, by simp at this ⊢; omega⟩

theorem intervalsAux_pairwise :
    ∀ (l : List Bool) (i : Nat) (st : Option Nat), (∀ s, st = some s → s < i) →
      List.Pairwise (fun p q : Nat × Nat => p.2 < q.1) (intervalsAux l i st) := by
  intro l
  induction l with
  | nil =>
    intro i st hwf
    cases st with
    | none => simp [intervalsAux]
    | some s => simp [intervalsAux]
  | cons bit rest ih =>
    intro i st hwf
    cases st with
    | none =>
      by_cases hb : bit = true
      · rw [show intervalsAux (bit :: rest) i none = intervalsAux rest (i + 1) (some i) by
          simp [intervalsAux, hb]]
        exact ih (i + 1) (some i) (by intro s hs; cases hs; omega)
      · rw [show intervalsAux (bit :: rest) i none = intervalsAux rest (i + 1) none by
          simp [intervalsAux, hb]]
        exact ih (i + 1) none (by simp)
    | some s =>
      have hs : s < i := hwf s rfl
      by_cases hb : bit = true
      · rw [show intervalsAux (bit :: rest) i (some s) = intervalsAux rest (i + 1) (some s) by
          simp [intervalsAux, hb]]
        exact ih (i + 1) (some s) (by intro s' hs'; cases hs'; omega)
      · rw [show intervalsAux (bit :: rest) i (some s) =
            (s, i) :: intervalsAux rest (i + 1) none by simp [intervalsAux, hb]]
        refine List.Pairwise.cons ?_ (ih (i + 1) none (by simp))
        intro q hq
        have := intervalsAux_bounds rest (i + 1) none (by simp) q hq
        simp only [Option.getD] at this
        omega

theorem getD_bool_cons (bit : Bool) (rest : List Bool) (i j : Nat) (h : i ≤ j) :
    (bit :: rest).getD (j - i) false =
      if j = i then bit else rest.getD (j - (i + 1)) false := by
  rcases Nat.eq_or_lt_of_le h with h' | h'
  · simp [h'.symm]
  · have hne : ¬(j = i) := by omega
    have hidx : j - i = (j - (i + 1)) + 1 := by omega
    simp [hne, hidx]

theorem coveredIn_cons (p : Nat × Nat) (R : List (Nat × Nat)) (j : Nat) :
    (∃ q ∈ p :: R, q.1 ≤ j ∧ j < q.2) ↔
      (p.1 ≤ j ∧ j < p.2) ∨ (∃ q ∈ R, q.1 ≤ j ∧ j < q.2) := by
  constructor
  · rintro ⟨q, hq, h1, h2⟩
    rcases List.mem_cons.mp hq with h | h
    · subst h
      exact Or.inl ⟨h1, h2⟩
    · exact Or.inr ⟨q, h, h1, h2⟩
  · rintro (⟨h1, h2⟩ | ⟨q, hq, h1, h2⟩)
    · exact ⟨p, List.mem_cons_self p R, h1, h2⟩
    · exact ⟨q, List.mem_cons_of_mem p hq, h1, h2⟩

theorem intervalsAux_covered :
    ∀ (l : List Bool) (i : Nat) (st : Option Nat), (∀ s, st = some s → s < i) → ∀ j,
      (∃ p ∈ intervalsAux l i st, p.1 ≤ j ∧ j < p.2) ↔
        ((∃ s, st = some s ∧ s ≤ j) ∧ j < i) ∨
          (i ≤ j ∧ l.getD (j - i) false = true) := by
  intro l
  induction l with
  | nil =>
    intro i st hwf j
    cases st with
    | none => simp [intervalsAux]
    | some s =>
      simp only [intervalsAux]
      constructor
      · rintro ⟨p, hp, h1, h2⟩
        rcases List.mem_singleton.mp hp with rfl
        exact Or.inl ⟨⟨s, rfl, h1⟩, h2⟩
      · rintro (⟨⟨s', hs', hsj⟩, hlt⟩ | ⟨hle, hC⟩)
        · cases hs'
          exact ⟨(s, i), List.mem_singleton_self _, hsj, hlt⟩
        · simp at hC
  | cons bit rest ih =>
    intro i st hwf j
    cases st with
    | none =>
      by_cases hb : bit = true
      · rw [show intervalsAux (bit :: rest) i none = intervalsAux rest (i + 1) (some i) by
          simp [intervalsAux, hb]]
        rw [ih (i + 1) (some i) (by intro s hs; cases hs; omega) j]
        constructor
        · rintro (⟨⟨s, hs, hsj⟩, hlt⟩ | ⟨hle, hB⟩)
          · cases hs
            refine Or.inr ⟨hsj, ?_⟩
            rw [getD_bool_cons bit rest i j hsj, if_pos (by omega : j = i)]
            exact hb
          · refine Or.inr ⟨by omega, ?_⟩
            rw [getD_bool_cons bit rest i j (by omega), if_neg (by omega : ¬j = i)]
            exact hB
        · rintro (⟨⟨s, hs, _⟩, _⟩ | ⟨hle, hC⟩)
          · exact absurd hs (by simp)
          · rw [getD_bool_cons bit rest i j hle] at hC
            by_cases hji : j = i
            · exact Or.inl ⟨⟨i, rfl, by omega⟩, by omega⟩
            · rw [if_neg hji] at hC
              exact Or.inr ⟨by omega, hC⟩
      · rw [show intervalsAux (bit :: rest) i none = intervalsAux rest (i + 1) none by
          simp [intervalsAux, hb]]
        rw [ih (i + 1) none (by simp) j]
        constructor
        · rintro (⟨⟨s, hs, _⟩, _⟩ | ⟨hle, hB⟩)
          · exact absurd hs (by simp)
          · refine Or.inr ⟨by omega, ?_⟩
            rw [getD_bool_cons bit rest i j (by omega), if_neg (by omega : ¬j = i)]
            exact hB
        · rintro (⟨⟨s, hs, _⟩, _⟩ | ⟨hle, hC⟩)
          · exact absurd hs (by simp)
          · by_cases hji : j = i
            · rw [getD_bool_cons bit rest i j hle, if_pos hji] at hC
              exact absurd hC hb
            · rw [getD_bool_cons bit rest i j hle, if_neg hji] at hC
              exact Or.inr ⟨by omega, hC⟩
    | some s =>
      have hsi : s < i := hwf s rfl
      by_cases hb : bit = true
      · rw [show intervalsAux (bit :: rest) i (some s) = intervalsAux rest (i + 1) (some s) by
          simp [intervalsAux, hb]]
        rw [ih (i + 1) (some s) (by intro s' hs'; cases hs'; omega) j]
        constructor
        · rintro (⟨⟨s', hs', hsj⟩, hlt⟩ | ⟨hle, hB⟩)
          · cases hs'
            by_cases hji : j < i
            · exact Or.inl ⟨⟨s, rfl, hsj⟩, hji⟩
            · refine Or.inr ⟨by omega, ?_⟩
              rw [getD_bool_cons bit rest i j (by omega), if_pos (by omega : j = i)]
              exact hb
          · refine Or.inr ⟨by omega, ?_⟩
            rw [getD_bool_cons bit rest i j (by omega), if_neg (by omega : ¬j = i)]
            exact hB
        · rintro (⟨⟨s', hs', hsj⟩, hlt⟩ | ⟨hle, hC⟩)
          · cases hs'
            exact Or.inl ⟨⟨s, rfl, hsj⟩, by omega⟩
          · by_cases hji : j = i
            · exact Or.inl ⟨⟨s, rfl, by omega⟩, by omega⟩
            · rw [getD_bool_cons bit rest i j hle, if_neg hji] at hC
              exact Or.inr ⟨by omega, hC⟩
      · rw [show intervalsAux (bit :: rest) i (some s) =
            (s, i) :: intervalsAux rest (i + 1) none by simp [intervalsAux, hb]]
        rw [coveredIn_cons (s, i) _ j, ih (i + 1) none (by simp) j]
        constructor
        · rintro (⟨h1, h2⟩ | (⟨⟨s', hs', _⟩, _⟩ | ⟨hle, hB⟩))
          · exact Or.inl ⟨⟨s, rfl, h1⟩, h2⟩
          · exact absurd hs' (by simp)
          · refine Or.inr ⟨by omega, ?_⟩
            rw [getD_bool_cons bit rest i j (by omega), if_neg (by omega : ¬j = i)]
            exact hB
        · rintro (⟨⟨s', hs', hsj⟩, hlt⟩ | ⟨hle, hC⟩)
          · cases hs'
            exact Or.inl ⟨hsj, hlt⟩
          · by_cases hji : j = i
            · rw [getD_bool_cons bit rest i j hle, if_pos hji] at hC
              exact absurd hC hb
            · rw [getD_bool_cons bit rest i j hle, if_neg hji] at hC
              exact Or.inr (Or.inr ⟨by omega, hC⟩)


theorem into_intervals_pairwise (mask : List Bool) :
    List.Pairwise (fun p q : Nat × Nat => p.2 < q.1) (into_intervals mask) :=
  intervalsAux_pairwise mask 0 none (by simp)

theorem into_intervals_bounds (mask : List Bool) :
    ∀ p ∈ into_intervals mask, p.1 < p.2 ∧ p.2 ≤ mask.length := by
  intro p hp
  have := intervalsAux_bounds mask 0 none (by simp) p hp
  exact ⟨this.2.1, by simpa using this.2.2⟩

theorem into_intervals_covered (mask : List Bool) (j : Nat) :
    (∃ p ∈ into_intervals mask, p.1 ≤ j ∧ j < p.2) ↔ mask.getD j false = true := by
  have := intervalsAux_covered mask 0 none (by simp) j
  simpa using this

theorem intervalsAux_replicate_false :
    ∀ (n i : Nat), intervalsAux (List.replicate n false) i none = [] := by
  intro n
  induction n with
  | zero => intro i; simp [intervalsAux]
  | succ n ih => intro i; simpa [List.replicate_succ, intervalsAux] using ih (i + 1)

theorem intervalsAux_replicate_true :
    ∀ (n i s : Nat), intervalsAux (List.replicate n true) i (some s) = [(s, i + n)] := by
  intro n
  induction n with
  | zero => intro i s; simp [intervalsAux]
  | succ n ih =>
    intro i s
    rw [List.replicate_succ]
    rw [show intervalsAux (true :: List.replicate n true) i (some s) =
        intervalsAux (List.replicate n true) (i + 1) (some s) by simp [intervalsAux]]
    rw [ih (i + 1) s]
    congr 2
    omega

theorem into_intervals_replicate_false (n : Nat) :
    into_intervals (List.replicate n false) = [] :=
  intervalsAux_replicate_false n 0

theorem into_intervals_replicate_true (n : Nat) :
    into_intervals (List.replicate (n + 1) true) = [(0, n + 1)] := by
  unfold into_intervals
  rw [List.replicate_succ]
  rw [show intervalsAux (true :: List.replicate n true) 0 none =
      intervalsAux (List.replicate n true) 1 (some 0) by simp [intervalsAux]]
  rw [intervalsAux_replicate_true n 1 0]
  congr 2
  omega

/-! ### Stable-sort lemmas: `sortRun` is sorted, a permutation, and stable -/

theorem sortRun_perm (key : Color32 → Nat) (l : List Color32) :
    List.Perm (sortRun key l) l :=
  List.perm_insertionSort _ l

theorem sortRun_length (key : Color32 → Nat) (l : List Color32) :
    (sortRun key l).length = l.length :=
  (sortRun_perm key l).length_eq

theorem sortRun_sorted (key : Color32 → Nat) (l : List Color32) :
    List.Sorted (fun x y => key x ≤ key y) (sortRun key l) := by
  haveI : IsTotal Color32 (fun x y => key x ≤ key y) := ⟨fun x y => Nat.le_total _ _⟩
  haveI : IsTrans Color32 (fun x y => key x ≤ key y) := ⟨fun _ _ _ h h' => Nat.le_trans h h'⟩
  exact List.sorted_insertionSort _ l

theorem sortRun_eq_of_sorted (key : Color32 → Nat) (l : List Color32)
    (h : List.Sorted (fun x y => key x ≤ key y) l) : sortRun key l = l :=
  h.insertionSort_eq

theorem filter_orderedInsert_key (key : Color32 → Nat) (k : Nat) (x : Color32) :
    ∀ l : List Color32,
      (List.orderedInsert (fun a b => key a ≤ key b) x l).filter (fun p => key p == k) =
        if key x == k then x :: l.filter (fun p => key p == k)
        else l.filter (fun p => key p == k) := by
  intro l
  induction l with
  | nil => simp [List.filter_cons]
  | cons y l ih =>
    by_cases hxy : key x ≤ key y
    · rw [show List.orderedInsert (fun a b => key a ≤ key b) x (y :: l) =
          x :: y :: l by simp [List.orderedInsert, hxy]]
      simp [List.filter_cons]
    · have hyx : key y < key x := Nat.lt_of_not_le hxy
      rw [show List.orderedInsert (fun a b => key a ≤ key b) x (y :: l) =
          y :: List.orderedInsert (fun a b => key a ≤ key b) x l by
        simp [List.orderedInsert, hxy]]
      by_cases hyk : (key y == k) = true
      · have hy : key y = k := by simpa using hyk
        have hxk : (key x == k) = false := by
          have : ¬key x = k := by omega
          simpa using this
        simp [List.filter_cons, hyk, hxk, ih]
      · simp [List.filter_cons, hyk, ih]

theorem filter_sortRun (key : Color32 → Nat) (k : Nat) :
    ∀ l : List Color32,
      (sortRun key l).filter (fun p => key p == k) = l.filter (fun p => key p == k) := by
  intro l
  induction l with
  | nil => rfl
  | cons x l ih =>
    rw [show sortRun key (x :: l) =
        List.orderedInsert (fun a b => key a ≤ key b) x (sortRun key l) by
      simp [sortRun, List.insertionSort]]
    rw [filter_orderedInsert_key key k x (sortRun key l)]
    by_cases hxk : (key x == k) = true
    · simp [List.filter_cons, hxk, ih]
    · simp [List.filter_cons, hxk, ih]

/-! ### List-surgery lemmas for `sortInterval` -/

theorem drop_append_of_length (A R : List Color32) (n : Nat) (h : A.length = n) :
    (A ++ R).drop n = R := by
  rw [← h, List.drop_left]

theorem take_append_of_length (B R : List Color32) (n : Nat) (h : B.length = n) :
    (B ++ R).take n = B := by
  rw [← h, List.take_left]

theorem sortInterval_run_length (key : Color32 → Nat) (off : Nat) (px : List Color32)
    (iv : Nat × Nat) (h1 : iv.1 ≤ iv.2) (h2 : off + iv.2 ≤ px.length) :
    (sortRun key ((px.drop (off + iv.1)).take (iv.2 - iv.1))).length = iv.2 - iv.1 := by
  rw [sortRun_length]
  simp only [List.length_take, List.length_drop]
  omega

theorem sortInterval_length (key : Color32 → Nat) (off : Nat) (px : List Color32)
    (iv : Nat × Nat) (h1 : iv.1 ≤ iv.2) (h2 : off + iv.2 ≤ px.length) :
    (sortInterval key off px iv).length = px.length := by
  have hB := sortInterval_run_length key off px iv h1 h2
  unfold sortInterval
  simp only [List.length_append, List.length_take, List.length_drop, hB]
  omega

theorem sortInterval_getD_outside (key : Color32 → Nat) (off : Nat) (px : List Color32)
    (iv : Nat × Nat) (h1 : iv.1 ≤ iv.2) (h2 : off + iv.2 ≤ px.length)
    (j : Nat) (d : Color32) (hj : j < off + iv.1 ∨ off + iv.2 ≤ j) :
    (sortInterval key off px iv).getD j d = px.getD j d := by
  have hB := sortInterval_run_length key off px iv h1 h2
  have hA : (px.take (off + iv.1)).length = off + iv.1 := by
    simp only [List.length_take]
    omega
  unfold sortInterval
  rw [getD_append', getD_append']
  rcases hj with hj | hj
  · rw [if_pos (by simp only [List.length_append, hA, hB]; omega),
      if_pos (by rw [hA]; omega), getD_take' _ _ _ _ (by omega)]
  · rw [if_neg (by simp only [List.length_append, hA, hB]; omega), getD_drop', hB]
    congr 1
    simp only [List.length_append, hA, hB]
    omega

theorem sortInterval_slice (key : Color32 → Nat) (off : Nat) (px : List Color32)
    (iv : Nat × Nat) (h1 : iv.1 ≤ iv.2) (h2 : off + iv.2 ≤ px.length) :
    listSlice (sortInterval key off px iv) (off + iv.1) (off + iv.2) =
      sortRun key (listSlice px (off + iv.1) (off + iv.2)) := by
  have hB := sortInterval_run_length key off px iv h1 h2
  have hA : (px.take (off + iv.1)).length = off + iv.1 := by
    simp only [List.length_take]
    omega
  unfold sortInterval listSlice
  rw [List.append_assoc]
  rw [drop_append_of_length _ _ _ hA]
  rw [show off + iv.2 - (off + iv.1) = iv.2 - iv.1 by omega]
  rw [take_append_of_length _ _ _ hB]

/-! ### The fold over the intervals of one row -/

theorem foldl_sortInterval_length (key : Color32 → Nat) (off : Nat) :
    ∀ (ivs : List (Nat × Nat)) (px : List Color32),
      (∀ p ∈ ivs, p.1 ≤ p.2 ∧ off + p.2 ≤ px.length) →
      (ivs.foldl (sortInterval key off) px).length = px.length := by
  intro ivs
  induction ivs with
  | nil => intro px _; rfl
  | cons iv ivs ih =>
    intro px hbd
    have h0 := hbd iv (List.mem_cons_self _ _)
    have hstep := sortInterval_length key off px iv h0.1 h0.2
    rw [List.foldl_cons,
      ih (sortInterval key off px iv) (by
        intro p hp
        have := hbd p (List.mem_cons_of_mem _ hp)
        exact ⟨this.1, by rw [hstep]; exact this.2⟩),
      hstep]

theorem foldl_sortInterval_getD_outside (key : Color32 → Nat) (off : Nat) :
    ∀ (ivs : List (Nat × Nat)) (px : List Color32) (j : Nat) (d : Color32),
      (∀ p ∈ ivs, p.1 ≤ p.2 ∧ off + p.2 ≤ px.length) →
      (∀ p ∈ ivs, j < off + p.1 ∨ off + p.2 ≤ j) →
      (ivs.foldl (sortInterval key off) px).getD j d = px.getD j d := by
  intro ivs
  induction ivs with
  | nil => intro px j d _ _; rfl
  | cons iv ivs ih =>
    intro px j d hbd hj
    have h0 := hbd iv (List.mem_cons_self _ _)
    have hstep := sortInterval_length key off px iv h0.1 h0.2
    rw [List.foldl_cons,
      ih (sortInterval key off px iv) j d (by
        intro p hp
        have := hbd p (List.mem_cons_of_mem _ hp)
        exact ⟨this.1, by rw [hstep]; exact this.2⟩) (by
        intro p hp
        exact hj p (List.mem_cons_of_mem _ hp)),
      sortInterval_getD_outside key off px iv h0.1 h0.2 j d
        (hj iv (List.mem_cons_self _ _))]

theorem foldl_sortInterval_slice (key : Color32 → Nat) (off : Nat) :
    ∀ (ivs : List (Nat × Nat)) (px : List Color32) (iv : Nat × Nat),
      (∀ p ∈ ivs, p.1 ≤ p.2 ∧ off + p.2 ≤ px.length) →
      List.Pairwise (fun p q : Nat × Nat => p.2 < q.1) ivs →
      iv ∈ ivs →
      listSlice (ivs.foldl (sortInterval key off) px) (off + iv.1) (off + iv.2) =
        sortRun key (listSlice px (off + iv.1) (off + iv.2)) := by
  intro ivs
  induction ivs with
  | nil => intro px iv _ _ hmem; simp at hmem
  | cons hd ivs ih =>
    intro px iv hbd hpw hmem
    have hhd := hbd hd (List.mem_cons_self _ _)
    have hlen := sortInterval_length key off px hd hhd.1 hhd.2
    have hbd' : ∀ p ∈ ivs, p.1 ≤ p.2 ∧ off + p.2 ≤ (sortInterval key off px hd).length := by
      intro p hp
      have := hbd p (List.mem_cons_of_mem _ hp)
      exact ⟨this.1, by rw [hlen]; exact this.2⟩
    rw [List.foldl_cons]
    rcases List.mem_cons.mp hmem with rfl | hmem'
    · have hout : ∀ j, off + iv.1 ≤ j → j < off + iv.2 →
          (ivs.foldl (sortInterval key off) (sortInterval key off px iv)).getD j
              defaultPixel =
            (sortInterval key off px iv).getD j defaultPixel := by
        intro j hj1 hj2
        apply foldl_sortInterval_getD_outside key off ivs _ j defaultPixel hbd'
        intro p hp
        have hlt : iv.2 < p.1 := (List.pairwise_cons.mp hpw).1 p hp
        left
        omega
      rw [listSlice_congr _ (sortInterval key off px iv) (off + iv.1) (off + iv.2)
          (by rw [foldl_sortInterval_length key off ivs _ hbd', hlen])
          (fun j hj1 hj2 => hout j hj1 hj2)]
      exact sortInterval_slice key off px iv hhd.1 hhd.2
    · rw [ih (sortInterval key off px hd) iv hbd' (List.pairwise_cons.mp hpw).2 hmem']
      congr 1
      apply listSlice_congr _ _ _ _ (by rw [hlen]) (fun j hj1 hj2 => ?_)
      apply sortInterval_getD_outside key off px hd hhd.1 hhd.2 j defaultPixel
      right
      have hlt : hd.2 < iv.1 := (List.pairwise_cons.mp hpw).1 iv hmem'
      omega

/-! ### Row-level lemmas -/

theorem length_rowBitmap (key : Color32 → Nat) (lower upper : Nat) (px : List Color32)
    (w yi : Nat) : (rowBitmap key lower upper px w yi).length = w := by
  simp [rowBitmap]

theorem getD_map_range {β : Type _} (w xi : Nat) (f : Nat → β) (d : β) (hx : xi < w) :
    ((List.range w).map f).getD xi d = f xi := by
  rw [getD_eq_get' _ _ _ (by simpa using hx)]
  simp

theorem rowBitmap_getD (key : Color32 → Nat) (lower upper : Nat) (px : List Color32)
    (w yi xi : Nat) (hx : xi < w) :
    (rowBitmap key lower upper px w yi).getD xi false =
      accepts lower upper (key (px.getD (yi * w + xi) defaultPixel)) := by
  unfold rowBitmap
  exact getD_map_range w xi _ false hx

theorem rowBitmap_congr (key : Color32 → Nat) (lower upper : Nat)
    (px px' : List Color32) (w yi : Nat)
    (h : ∀ xi, xi < w → px.getD (yi * w + xi) defaultPixel =
      px'.getD (yi * w + xi) defaultPixel) :
    rowBitmap key lower upper px w yi = rowBitmap key lower upper px' w yi := by
  unfold rowBitmap
  apply List.map_congr_left
  intro xi hxi
  rw [h xi (List.mem_range.mp hxi)]

theorem sortRowAt_bounds (key : Color32 → Nat) (lower upper w : Nat) (px : List Color32)
    (yi : Nat) (hrow : yi * w + w ≤ px.length) :
    ∀ p ∈ into_intervals (rowBitmap key lower upper px w yi),
      p.1 ≤ p.2 ∧ yi * w + p.2 ≤ px.length := by
  intro p hp
  have := into_intervals_bounds _ p hp
  rw [length_rowBitmap] at this
  exact ⟨Nat.le_of_lt this.1, by omega⟩

theorem sortRowAt_length (key : Color32 → Nat) (lower upper w : Nat) (px : List Color32)
    (yi : Nat) (hrow : yi * w + w ≤ px.length) :
    (sortRowAt key lower upper w px yi).length = px.length :=
  foldl_sortInterval_length key (yi * w) _ px
    (sortRowAt_bounds key lower upper w px yi hrow)

theorem sortRowAt_getD_outside_row (key : Color32 → Nat) (lower upper w : Nat)
    (px : List Color32) (yi : Nat) (hrow : yi * w + w ≤ px.length)
    (j : Nat) (d : Color32) (hj : j < yi * w ∨ yi * w + w ≤ j) :
    (sortRowAt key lower upper w px yi).getD j d = px.getD j d := by
  apply foldl_sortInterval_getD_outside key (yi * w) _ px j d
    (sortRowAt_bounds key lower upper w px yi hrow)
  intro p hp
  have := into_intervals_bounds _ p hp
  rw [length_rowBitmap] at this
  rcases hj with hj | hj
  · left; omega
  · right; omega

theorem sortRowAt_getD_not_accepted (key : Color32 → Nat) (lower upper w : Nat)
    (px : List Color32) (yi : Nat) (hrow : yi * w + w ≤ px.length)
    (xi : Nat) (d : Color32) (hx : xi < w)
    (hbit : accepts lower upper (key (px.getD (yi * w + xi) defaultPixel)) = false) :
    (sortRowAt key lower upper w px yi).getD (yi * w + xi) d =
      px.getD (yi * w + xi) d := by
  apply foldl_sortInterval_getD_outside key (yi * w) _ px _ d
    (sortRowAt_bounds key lower upper w px yi hrow)
  intro p hp
  by_cases hc : p.1 ≤ xi ∧ xi < p.2
  · exfalso
    have hcov : (rowBitmap key lower upper px w yi).getD xi false = true :=
      (into_intervals_covered _ xi).mp ⟨p, hp, hc.1, hc.2⟩
    rw [rowBitmap_getD key lower upper px w yi xi hx, hbit] at hcov
    exact Bool.false_ne_true hcov
  · rcases Nat.lt_or_ge xi p.1 with h | h
    · left; omega
    · have : p.2 ≤ xi := by
        rcases Nat.lt_or_ge xi p.2 with h' | h'
        · exact absurd ⟨h, h'⟩ hc
        · exact h'
      right; omega

theorem sortRowAt_slice (key : Color32 → Nat) (lower upper w : Nat) (px : List Color32)
    (yi : Nat) (hrow : yi * w + w ≤ px.length) (iv : Nat × Nat)
    (hmem : iv ∈ into_intervals (rowBitmap key lower upper px w yi)) :
    listSlice (sortRowAt key lower upper w px yi) (yi * w + iv.1) (yi * w + iv.2) =
      sortRun key (listSlice px (yi * w + iv.1) (yi * w + iv.2)) :=
  foldl_sortInterval_slice key (yi * w) _ px iv
    (sortRowAt_bounds key lower upper w px yi hrow)
    (into_intervals_pairwise _) hmem

/-! ### Image-level lemmas -/

theorem row_bound (w h yi : Nat) (hyi : yi < h) : yi * w + w ≤ w * h := by
  have h1 : (yi + 1) * w ≤ h * w := Nat.mul_le_mul_right w (by omega)
  have h2 : (yi + 1) * w = yi * w + w := Nat.succ_mul yi w
  have h3 : h * w = w * h := Nat.mul_comm h w
  omega

theorem sortRows_spec (key : Color32 → Nat) (lower upper w H : Nat)
    (px0 : List Color32) (hlen : px0.length = w * H) :
    ∀ m, m ≤ H →
      ((List.range m).foldl (sortRowAt key lower upper w) px0).length = px0.length ∧
      (∀ j d, m * w ≤ j →
        ((List.range m).foldl (sortRowAt key lower upper w) px0).getD j d =
          px0.getD j d) ∧
      (∀ yi, yi < m →
        (∀ iv ∈ into_intervals (rowBitmap key lower upper px0 w yi),
          listSlice ((List.range m).foldl (sortRowAt key lower upper w) px0)
              (yi * w + iv.1) (yi * w + iv.2) =
            sortRun key (listSlice px0 (yi * w + iv.1) (yi * w + iv.2))) ∧
        (∀ xi, xi < w →
          accepts lower upper (key (px0.getD (yi * w + xi) defaultPixel)) = false →
          ∀ d, ((List.range m).foldl (sortRowAt key lower upper w) px0).getD
              (yi * w + xi) d =
            px0.getD (yi * w + xi) d)) := by
  intro m
  induction m with
  | zero =>
    intro _
    exact ⟨rfl, fun j d _ => rfl, fun yi hyi => absurd hyi (by omega)⟩
  | succ m ih =>
    intro hm
    obtain ⟨ih1, ih2, ih3⟩ := ih (by omega)
    have hstep : (List.range (m + 1)).foldl (sortRowAt key lower upper w) px0 =
        sortRowAt key lower upper w
          ((List.range m).foldl (sortRowAt key lower upper w) px0) m := by
      rw [List.range_succ, List.foldl_append, List.foldl_cons, List.foldl_nil]
    have hmul : (m + 1) * w = m * w + w := Nat.succ_mul m w
    have hrow : m * w + w ≤
        ((List.range m).foldl (sortRowAt key lower upper w) px0).length := by
      rw [ih1, hlen]
      have := row_bound w H m (by omega)
      omega
    have hbitmap :
        rowBitmap key lower upper
            ((List.range m).foldl (sortRowAt key lower upper w) px0) w m =
          rowBitmap key lower upper px0 w m :=
      rowBitmap_congr key lower upper _ px0 w m fun xi _ =>
        ih2 (m * w + xi) defaultPixel (by omega)
    refine ⟨?_, ?_, ?_⟩
    · rw [hstep, sortRowAt_length key lower upper w _ m hrow, ih1]
    · intro j d hj
      rw [hstep,
        sortRowAt_getD_outside_row key lower upper w _ m hrow j d (by right; omega),
        ih2 j d (by omega)]
    · intro yi hyi
      rcases Nat.lt_or_ge yi m with hlt | hge
      · obtain ⟨ihA, ihB⟩ := ih3 yi hlt
        have hylt : yi * w + w ≤ m * w := by
          have h1 : (yi + 1) * w ≤ m * w := Nat.mul_le_mul_right w (by omega)
          have h2 : (yi + 1) * w = yi * w + w := Nat.succ_mul yi w
          omega
        constructor
        · intro iv hiv
          have hbnd := into_intervals_bounds _ iv hiv
          rw [length_rowBitmap] at hbnd
          rw [hstep]
          rw [listSlice_congr (sortRowAt key lower upper w _ m) _
              (yi * w + iv.1) (yi * w + iv.2)
              (sortRowAt_length key lower upper w _ m hrow)
              (fun j hj1 hj2 =>
                sortRowAt_getD_outside_row key lower upper w _ m hrow j
                  defaultPixel (by left; omega))]
          exact ihA iv hiv
        · intro xi hxi hacc d
          rw [hstep,
            sortRowAt_getD_outside_row key lower upper w _ m hrow _ d
              (by left; omega),
            ihB xi hxi hacc d]
      · have hym : yi = m := by omega
        subst hym
        constructor
        · intro iv hiv
          have hiv' : iv ∈ into_intervals (rowBitmap key lower upper
              ((List.range yi).foldl (sortRowAt key lower upper w) px0) w yi) := by
            rw [hbitmap]
            exact hiv
          rw [hstep, sortRowAt_slice key lower upper w _ yi hrow iv hiv']
          congr 1
          exact listSlice_congr _ _ _ _ ih1 fun j hj1 hj2 =>
            ih2 j defaultPixel (by omega)
        · intro xi hxi hacc d
          have hacc' : accepts lower upper
              (key (((List.range yi).foldl (sortRowAt key lower upper w) px0).getD
                (yi * w + xi) defaultPixel)) = false := by
            rw [ih2 (yi * w + xi) defaultPixel (by omega)]
            exact hacc
          rw [hstep,
            sortRowAt_getD_not_accepted key lower upper w _ yi hrow xi d hxi hacc',
            ih2 _ d (by omega)]

theorem sort_image_width (lower upper : Nat) (img : ColorImage) (method : SortBy) :
    (sort_image lower upper img method).width = img.width := rfl

theorem sort_image_height (lower upper : Nat) (img : ColorImage) (method : SortBy) :
    (sort_image lower upper img method).height = img.height := rfl

theorem sort_image_pixels (lower upper : Nat) (img : ColorImage) (method : SortBy) :
    (sort_image lower upper img method).pixels =
      (List.range img.height).foldl
        (sortRowAt (pixel_property method) lower upper img.width) img.pixels := rfl

theorem sort_image_spec (lower upper : Nat) (img : ColorImage) (method : SortBy)
    (hlen : img.pixels.length = img.width * img.height) :
    (sort_image lower upper img method).pixels.length = img.pixels.length ∧
    (∀ yi, yi < img.height →
      (∀ iv ∈ into_intervals (rowBitmap (pixel_property method) lower upper
          img.pixels img.width yi),
        listSlice (sort_image lower upper img method).pixels
            (yi * img.width + iv.1) (yi * img.width + iv.2) =
          sortRun (pixel_property method)
            (listSlice img.pixels (yi * img.width + iv.1) (yi * img.width + iv.2))) ∧
      (∀ xi, xi < img.width →
        accepts lower upper (pixel_property method
          (img.pixels.getD (yi * img.width + xi) defaultPixel)) = false →
        ∀ d, (sort_image lower upper img method).pixels.getD (yi * img.width + xi) d =
          img.pixels.getD (yi * img.width + xi) d)) := by
  have h := sortRows_spec (pixel_property method) lower upper img.width img.height
    img.pixels hlen img.height le_rfl
  rw [sort_image_pixels]
  exact ⟨h.1, h.2.2⟩

theorem rowBitmap_sort_image (lower upper : Nat) (img : ColorImage) (method : SortBy)
    (hlen : img.pixels.length = img.width * img.height) (yi : Nat)
    (hyi : yi < img.height) :
    rowBitmap (pixel_property method) lower upper
        (sort_image lower upper img method).pixels img.width yi =
      rowBitmap (pixel_property method) lower upper img.pixels img.width yi := by
  obtain ⟨hL, hrows⟩ := sort_image_spec lower upper img method hlen
  obtain ⟨hslice, hfix⟩ := hrows yi hyi
  unfold rowBitmap
  apply List.map_congr_left
  intro xi hxi
  have hx : xi < img.width := List.mem_range.mp hxi
  by_cases hbit : accepts lower upper (pixel_property method
      (img.pixels.getD (yi * img.width + xi) defaultPixel)) = true
  · have hcov : (rowBitmap (pixel_property method) lower upper img.pixels
        img.width yi).getD xi false = true := by
      rw [rowBitmap_getD _ _ _ _ _ _ _ hx]
      exact hbit
    obtain ⟨iv, hiv, h1, h2⟩ := (into_intervals_covered _ xi).mpr hcov
    have hbnd := into_intervals_bounds _ iv hiv
    rw [length_rowBitmap] at hbnd
    have hrowend : yi * img.width + iv.2 ≤ img.pixels.length := by
      have := row_bound img.width img.height yi hyi
      omega
    have hkidx : xi - iv.1 < (yi * img.width + iv.2) - (yi * img.width + iv.1) := by
      omega
    have hres : (sort_image lower upper img method).pixels.getD
        (yi * img.width + xi) defaultPixel ∈
        listSlice img.pixels (yi * img.width + iv.1) (yi * img.width + iv.2) := by
      have e1 : (sort_image lower upper img method).pixels.getD
          (yi * img.width + xi) defaultPixel =
          (listSlice (sort_image lower upper img method).pixels
            (yi * img.width + iv.1) (yi * img.width + iv.2)).getD (xi - iv.1)
            defaultPixel := by
        rw [getD_listSlice _ _ _ _ _ hkidx]
        congr 1
        omega
      rw [e1, hslice iv hiv]
      have hmemlen : xi - iv.1 <
          (sortRun (pixel_property method)
            (listSlice img.pixels (yi * img.width + iv.1)
              (yi * img.width + iv.2))).length := by
        rw [sortRun_length, listSlice_length]
        omega
      have := getD_mem' _ (xi - iv.1) defaultPixel hmemlen
      exact (sortRun_perm (pixel_property method) _).mem_iff.mp this
    obtain ⟨k', hk1, hk2, hk3⟩ := mem_listSlice _ _ _ _ hres
    have hbit' : accepts lower upper (pixel_property method
        (img.pixels.getD (yi * img.width + iv.1 + k') defaultPixel)) = true := by
      have hcov' : (rowBitmap (pixel_property method) lower upper img.pixels
          img.width yi).getD (iv.1 + k') false = true :=
        (into_intervals_covered _ (iv.1 + k')).mp ⟨iv, hiv, by omega, by omega⟩
      rw [rowBitmap_getD _ _ _ _ _ _ _ (by omega)] at hcov'
      rw [show yi * img.width + iv.1 + k' = yi * img.width + (iv.1 + k') by omega]
      exact hcov'
    rw [hbit, ← hk3, hbit']
  · have hbitf : accepts lower upper (pixel_property method
        (img.pixels.getD (yi * img.width + xi) defaultPixel)) = false :=
      Bool.eq_false_iff.mpr hbit
    rw [hfix xi hx hbitf defaultPixel]

/-! ### Hue-evaluator lemmas -/

theorem chanMin_le_chanMax (p : Color32) : chanMin p ≤ chanMax p :=
  le_trans (min_le_left _ _) (le_max_left _ _)

theorem le_chanMax_r (p : Color32) : (p.r : ℚ) ≤ chanMax p :=
  le_trans (le_max_left _ _) (le_max_right _ _)

theorem le_chanMax_g (p : Color32) : (p.g : ℚ) ≤ chanMax p :=
  le_trans (le_max_right _ _) (le_max_right _ _)

theorem le_chanMax_b (p : Color32) : (p.b : ℚ) ≤ chanMax p :=
  le_max_left _ _

theorem chanMin_le_r (p : Color32) : chanMin p ≤ (p.r : ℚ) :=
  le_trans (min_le_right _ _) (min_le_left _ _)

theorem chanMin_le_g (p : Color32) : chanMin p ≤ (p.g : ℚ) :=
  le_trans (min_le_right _ _) (min_le_right _ _)

theorem chanMin_le_b (p : Color32) : chanMin p ≤ (p.b : ℚ) :=
  min_le_left _ _

theorem chanMax_cases (p : Color32) :
    chanMax p = (p.r : ℚ) ∨ chanMax p = (p.g : ℚ) ∨ chanMax p = (p.b : ℚ) := by
  unfold chanMax
  rcases max_choice (p.b : ℚ) (max (p.r : ℚ) (p.g : ℚ)) with h | h
  · exact Or.inr (Or.inr h)
  · rcases max_choice (p.r : ℚ) (p.g : ℚ) with h' | h'
    · exact Or.inl (h.trans h')
    · exact Or.inr (Or.inl (h.trans h'))

theorem toNat_floor_le_359 {q : ℚ} (h : q < 360) : Int.toNat ⌊q⌋ ≤ 359 := by
  have h1 : ⌊q⌋ < (360 : ℤ) := Int.floor_lt.mpr (by exact_mod_cast h)
  omega

theorem wrap_lt_360 {h : ℚ} (hub : h < 360) :
    (if h < 0 then h + 360 else h) < 360 := by
  split_ifs with h0
  · linarith
  · exact hub

theorem hue_le_359 (p : Color32) : hue p ≤ 359 := by
  unfold hue hue?
  by_cases hac : chanMax p = chanMin p
  · rw [if_pos hac]
    simp
  · rw [if_neg hac]
    have hlt : chanMin p < chanMax p :=
      lt_of_le_of_ne (chanMin_le_chanMax p) fun hh => hac hh.symm
    have hpos : (0 : ℚ) < chanMax p - chanMin p := sub_pos.mpr hlt
    by_cases hr : chanMax p = (p.r : ℚ)
    · rw [if_pos hr]
      simp only [Option.map_some', Option.getD_some]
      apply toNat_floor_le_359
      apply wrap_lt_360
      have hdiv : ((p.g : ℚ) - (p.b : ℚ)) / (chanMax p - chanMin p) ≤ 1 :=
        (div_le_one hpos).mpr (by
          have h1 := le_chanMax_g p
          have h2 := chanMin_le_b p
          linarith)
      nlinarith [hdiv, hpos]
    · rw [if_neg hr]
      by_cases hg : chanMax p = (p.g : ℚ)
      · rw [if_pos hg]
        simp only [Option.map_some', Option.getD_some]
        apply toNat_floor_le_359
        apply wrap_lt_360
        have hdiv : ((p.b : ℚ) - (p.r : ℚ)) / (chanMax p - chanMin p) ≤ 1 :=
          (div_le_one hpos).mpr (by
            have h1 := le_chanMax_b p
            have h2 := chanMin_le_r p
            linarith)
        nlinarith [hdiv, hpos]
      · rw [if_neg hg]
        by_cases hb : chanMax p = (p.b : ℚ)
        · rw [if_pos hb]
          simp only [Option.map_some', Option.getD_some]
          apply toNat_floor_le_359
          apply wrap_lt_360
          have hdiv : ((p.r : ℚ) - (p.g : ℚ)) / (chanMax p - chanMin p) ≤ 1 :=
            (div_le_one hpos).mpr (by
              have h1 := le_chanMax_r p
              have h2 := chanMin_le_g p
              linarith)
          nlinarith [hdiv, hpos]
        · rw [if_neg hb]
          simp

theorem hue_achromatic (p : Color32) (h : chanMax p = chanMin p) : hue p = 0 := by
  unfold hue hue?
  rw [if_pos h]
  rfl

theorem hue_achromatic_nat (p : Color32)
    (h : max p.b (max p.r p.g) = min p.b (min p.r p.g)) : hue p = 0 := by
  apply hue_achromatic
  unfold chanMax chanMin
  have := congrArg (fun n : Nat => (n : ℚ)) h
  push_cast at this
  exact this

theorem hue?_total (p : Color32) : ∃ n, hue? p = some n := by
  unfold hue?
  by_cases hac : chanMax p = chanMin p
  · rw [if_pos hac]
    exact ⟨0, rfl⟩
  · rw [if_neg hac]
    by_cases hr : chanMax p = (p.r : ℚ)
    · rw [if_pos hr]
      exact ⟨_, rfl⟩
    · rw [if_neg hr]
      by_cases hg : chanMax p = (p.g : ℚ)
      · rw [if_pos hg]
        exact ⟨_, rfl⟩
      · rw [if_neg hg]
        rcases chanMax_cases p with h | h | h
        · exact absurd h hr
        · exact absurd h hg
        · rw [if_pos h]
          exact ⟨_, rfl⟩

/-! ### Helpers for the invalid-threshold and idempotence claims -/

theorem accepts_false_of_invalid (lower upper v : Nat) (h : upper < lower) :
    accepts lower upper v = false := by
  unfold accepts
  by_cases h1 : lower ≤ v
  · have h2 : ¬v ≤ upper := by omega
    simp [h1, h2]
  · simp [h1]

theorem into_intervals_eq_nil_of_all_false (l : List Bool)
    (h : ∀ b ∈ l, b = false) : into_intervals l = [] := by
  cases hl : into_intervals l with
  | nil => rfl
  | cons p R =>
    exfalso
    have hp : p ∈ into_intervals l := by
      rw [hl]
      exact List.mem_cons_self _ _
    have hbnd := into_intervals_bounds l p hp
    have hcov : ∃ q ∈ into_intervals l, q.1 ≤ p.1 ∧ p.1 < q.2 :=
      ⟨p, hp, le_refl _, hbnd.1⟩
    have htrue := (into_intervals_covered l p.1).mp hcov
    have hmem : l.getD p.1 false ∈ l := getD_mem' l p.1 false (by omega)
    rw [htrue] at hmem
    exact absurd (h true hmem) (by simp)

theorem colorImage_eq_of_pixels {A B : ColorImage} (hw : A.width = B.width)
    (hh : A.height = B.height) (hp : A.pixels = B.pixels) : A = B := by
  cases A
  cases B
  cases hw
  cases hh
  cases hp
  rfl

theorem sort_image_getD_mem_slice (lower upper : Nat) (img : ColorImage)
    (method : SortBy) (hlen : img.pixels.length = img.width * img.height)
    (yi : Nat) (hyi : yi < img.height) (iv : Nat × Nat)
    (hiv : iv ∈ into_intervals (rowBitmap (pixel_property method) lower upper
      img.pixels img.width yi))
    (xi : Nat) (h1 : iv.1 ≤ xi) (h2 : xi < iv.2) :
    (sort_image lower upper img method).pixels.getD (yi * img.width + xi)
        defaultPixel ∈
      listSlice img.pixels (yi * img.width + iv.1) (yi * img.width + iv.2) := by
  obtain ⟨hL, hrows⟩ := sort_image_spec lower upper img method hlen
  obtain ⟨hslice, _⟩ := hrows yi hyi
  have hbnd := into_intervals_bounds _ iv hiv
  rw [length_rowBitmap] at hbnd
  have hrowend : yi * img.width + iv.2 ≤ img.pixels.length := by
    have := row_bound img.width img.height yi hyi
    omega
  have hkidx : xi - iv.1 < (yi * img.width + iv.2) - (yi * img.width + iv.1) := by
    omega
  have e1 : (sort_image lower upper img method).pixels.getD
      (yi * img.width + xi) defaultPixel =
      (listSlice (sort_image lower upper img method).pixels
        (yi * img.width + iv.1) (yi * img.width + iv.2)).getD (xi - iv.1)
        defaultPixel := by
    rw [getD_listSlice _ _ _ _ _ hkidx]
    congr 1
    omega
  rw [e1, hslice iv hiv]
  have hmemlen : xi - iv.1 <
      (sortRun (pixel_property method)
        (listSlice img.pixels (yi * img.width + iv.1)
          (yi * img.width + iv.2))).length := by
    rw [sortRun_length, listSlice_length]
    omega
  exact (sortRun_perm (pixel_property method) _).mem_iff.mp
    (getD_mem' _ (xi - iv.1) defaultPixel hmemlen)

/-! ### Claim theorems -/

/-- C1 (counterexample): with `lower = 5 > 3 = upper` the `sort_image` of the
source returns no `Result` and signals no configuration error: it builds an
all-`false` acceptance mask and leaves the buffer unchanged — exactly the
silent no-op the claim says cannot happen. -/
theorem invalid_threshold_no_error_buffer_unchanged :
    sort_image 5 3 imgA SortBy.Luminance = imgA ∧
    rowBitmap (pixel_property SortBy.Luminance) 5 3 imgA.pixels imgA.width 0 =
      [false, false] :=
  ⟨by decide, by decide⟩

/-- C1 (amended): `sort_image` performs no threshold validation and returns
no error value; for every buffer and property, when `lower > upper` every
pixel is rejected (the acceptance masks are empty) and the buffer is left
unchanged.  Threshold validation lives in the CLI `main`, which rejects
`lower > upper` with exit code 1 before any image is processed. -/
theorem invalid_threshold_silent_noop (lower upper : Nat) (img : ColorImage)
    (method : SortBy) (h : upper < lower) :
    sort_image lower upper img method = img ∧
    mainThresholdGuard lower upper = Except.error 1 := by
  constructor
  · have hrow0 : ∀ (px : List Color32) (yi : Nat),
        sortRowAt (pixel_property method) lower upper img.width px yi = px := by
      intro px yi
      have hnil : into_intervals
          (rowBitmap (pixel_property method) lower upper px img.width yi) = [] := by
        apply into_intervals_eq_nil_of_all_false
        intro bit hb
        unfold rowBitmap at hb
        obtain ⟨xi, _, rfl⟩ := List.mem_map.mp hb
        exact accepts_false_of_invalid lower upper _ h
      unfold sortRowAt
      rw [hnil]
      rfl
    have hfold : ∀ (l : List Nat) (px : List Color32),
        l.foldl (sortRowAt (pixel_property method) lower upper img.width) px = px := by
      intro l
      induction l with
      | nil => intro px; rfl
      | cons a l ih =>
        intro px
        rw [List.foldl_cons, hrow0 px a]
        exact ih px
    exact colorImage_eq_of_pixels rfl rfl (hfold (List.range img.height) img.pixels)
  · unfold mainThresholdGuard
    rw [if_pos (by omega)]

/-- C1 witness: the amended claim at `lower = 5`, `upper = 3` on a concrete
2×1 image. -/
theorem invalid_threshold_silent_noop_w :
    sort_image 5 3 imgA SortBy.Luminance = imgA ∧
    mainThresholdGuard 5 3 = Except.error 1 :=
  invalid_threshold_silent_noop 5 3 imgA SortBy.Luminance (by decide)

/-- C3: the intervals returned by the segmenter are nonempty and end within
the mask, consecutive intervals are separated by at least one false index
(so they are pairwise disjoint and never merge across a false gap), start
indices are strictly increasing, and the union of the intervals is exactly
the set of indices where the mask is true; the empty mask and every
all-false mask yield no intervals, and an all-true mask of length `n + 1`
yields the single interval `[0, n + 1)`. -/
theorem into_intervals_spec (mask : List Bool) :
    (∀ p ∈ into_intervals mask, p.1 < p.2 ∧ p.2 ≤ mask.length) ∧
    List.Pairwise (fun p q : Nat × Nat => p.2 < q.1) (into_intervals mask) ∧
    List.Pairwise (fun p q : Nat × Nat => p.1 < q.1) (into_intervals mask) ∧
    (∀ j, (∃ p ∈ into_intervals mask, p.1 ≤ j ∧ j < p.2) ↔
      mask.getD j false = true) ∧
    into_intervals ([] : List Bool) = [] ∧
    (∀ n, into_intervals (List.replicate n false) = []) ∧
    (∀ n, into_intervals (List.replicate (n + 1) true) = [(0, n + 1)]) := by
  refine ⟨into_intervals_bounds mask, into_intervals_pairwise mask, ?_,
    into_intervals_covered mask, rfl, into_intervals_replicate_false,
    into_intervals_replicate_true⟩
  apply List.Pairwise.imp_of_mem ?_ (into_intervals_pairwise mask)
  intro p q hp hq hlt
  have := (into_intervals_bounds mask p hp).1
  omega

/-- C8 (counterexample): a batch whose first path fails to load produces no
processed image at all and exits with code 1: the loadable image after the
failure is not processed, contradicting "failures ... not fatal to
processing the remaining images". -/
theorem batch_aborts_on_first_failure :
    processBatch 0 255 SortBy.Luminance [(none, true), (some imgB, true)] =
      ([], 1) ∧
    sort_image 0 255 imgB SortBy.Luminance ∉
      (processBatch 0 255 SortBy.Luminance
        [(none, true), (some imgB, true)]).1 := by
  refine ⟨rfl, ?_⟩
  intro hmem
  simp [processBatch] at hmem

/-- C8 (amended): the batch loop of `main` processes images only up to the
first failure.  A batch in which every image loads and saves yields every
sorted image and exit code 0.  A load failure stops the loop immediately
with exit code 1: exactly the images before it are sorted and saved, and
every path after it — whatever its outcome would have been — is not
processed.  A save failure panics and aborts the process with exit code 101,
again leaving exactly the earlier images saved and every later path
unprocessed. -/
theorem batch_exit_semantics (lower upper : Nat) (method : SortBy)
    (pre : List ColorImage) (tail : List (Option ColorImage × Bool))
    (b : Bool) (img : ColorImage) :
    processBatch lower upper method (pre.map fun i => (some i, true)) =
      (pre.map fun i => sort_image lower upper i method, 0) ∧
    processBatch lower upper method
        ((pre.map fun i => (some i, true)) ++ (none, b) :: tail) =
      (pre.map fun i => sort_image lower upper i method, 1) ∧
    processBatch lower upper method
        ((pre.map fun i => (some i, true)) ++ (some img, false) :: tail) =
      (pre.map fun i => sort_image lower upper i method, 101) := by
  induction pre with
  | nil => exact ⟨rfl, rfl, rfl⟩
  | cons a pre ih =>
    refine ⟨?_, ?_, ?_⟩
    · simp only [List.map_cons, processBatch, if_true]
      rw [ih.1]
    · simp only [List.map_cons, List.cons_append, processBatch,
        List.append_eq, if_true]
      rw [ih.2.1]
    · simp only [List.map_cons, List.cons_append, processBatch,
        List.append_eq, if_true]
      rw [ih.2.2]

/-- C9 (counterexample): the hue threshold domain exposed by
`threshold_upper_boundary` is 0–360, not 0–359. -/
theorem hue_threshold_domain_360 :
    threshold_upper_boundary SortBy.Hue = 360 ∧
    threshold_upper_boundary SortBy.Hue ≠ 359 :=
  ⟨rfl, by decide⟩

/-- C9 (amended): every hue scalar key is at most 359 (the hue value lies in
[0, 360)); an achromatic pixel (max channel = min channel) gets hue 0; a
negative six-sector result is wrapped by adding 360 before truncation, as
witnessed by the pixel (255, 0, 1) whose pre-wrap hue is −4/17 and whose key
is 359; but the hue threshold domain of `threshold_upper_boundary` is 0–360,
not 0–359. -/
theorem hue_range_spec :
    (∀ p : Color32, hue p ≤ 359 ∧
      (max p.b (max p.r p.g) = min p.b (min p.r p.g) → hue p = 0)) ∧
    hue ⟨255, 0, 1, 0⟩ = 359 ∧
    threshold_upper_boundary SortBy.Hue = 360 := by
  refine ⟨fun p => ⟨hue_le_359 p, hue_achromatic_nat p⟩, ?_, rfl⟩
  unfold hue hue?
  norm_num [chanMax, chanMin, max_def, min_def]
  rfl

/-- C9 witness: the amended claim applied at the achromatic pixel
(7, 7, 7). -/
theorem hue_range_spec_w : hue ⟨7, 7, 7, 1⟩ = 0 ∧ hue ⟨7, 7, 7, 1⟩ ≤ 359 :=
  ⟨(hue_range_spec.1 ⟨7, 7, 7, 1⟩).2 (by decide),
    (hue_range_spec.1 ⟨7, 7, 7, 1⟩).1⟩

/-- C10: the hue computation never reaches the `panic!("how?")` branch: on
every pixel the six-sector dispatch takes one of the three defined cases, so
`hue?` always returns a value and the total `hue` agrees with it (the
`luminance` and `saturation` evaluators are total functions by construction,
as in the source they contain no panicking branch). -/
theorem property_evaluators_total (p : Color32) :
    ∃ n, hue? p = some n ∧ hue p = n ∧ pixel_property SortBy.Hue p = n := by
  obtain ⟨n, hn⟩ := hue?_total p
  refine ⟨n, hn, ?_, ?_⟩
  · unfold hue
    rw [hn]
    rfl
  · show hue p = n
    unfold hue
    rw [hn]
    rfl

/-- C2: for a valid threshold pair, after `sort_image` the acceptance mask of
every row is unchanged — so the maximal accepted runs of the result are
exactly the intervals computed from the input row — and on every such
maximal run the scalar keys of the result are non-decreasing left to
right. -/
theorem sorted_runs_after_sort (lower upper : Nat) (img : ColorImage)
    (method : SortBy) (hvalid : lower ≤ upper)
    (hlen : img.pixels.length = img.width * img.height)
    (yi : Nat) (hyi : yi < img.height) (iv : Nat × Nat)
    (hiv : iv ∈ into_intervals (rowBitmap (pixel_property method) lower upper
      img.pixels img.width yi)) :
    rowBitmap (pixel_property method) lower upper
        (sort_image lower upper img method).pixels img.width yi =
      rowBitmap (pixel_property method) lower upper img.pixels img.width yi ∧
    List.Sorted (fun x y : Color32 =>
        pixel_property method x ≤ pixel_property method y)
      (listSlice (sort_image lower upper img method).pixels
        (yi * img.width + iv.1) (yi * img.width + iv.2)) := by
  refine ⟨rowBitmap_sort_image lower upper img method hlen yi hyi, ?_⟩
  rw [((sort_image_spec lower upper img method hlen).2 yi hyi).1 iv hiv]
  exact sortRun_sorted _ _

/-- C2 witness: thresholds `[0, 255]` on the 3×1 image with luminance keys
`[200, 50, 10]`, row 0, interval `[0, 3)`. -/
theorem sorted_runs_after_sort_w :
    rowBitmap (pixel_property SortBy.Luminance) 0 255
        (sort_image 0 255 imgC SortBy.Luminance).pixels imgC.width 0 =
      rowBitmap (pixel_property SortBy.Luminance) 0 255 imgC.pixels
        imgC.width 0 ∧
    List.Sorted (fun x y : Color32 =>
        pixel_property SortBy.Luminance x ≤ pixel_property SortBy.Luminance y)
      (listSlice (sort_image 0 255 imgC SortBy.Luminance).pixels
        (0 * imgC.width + (0, 3).1) (0 * imgC.width + (0, 3).2)) :=
  sorted_runs_after_sort 0 255 imgC SortBy.Luminance (by decide) (by decide)
    0 (by decide) (0, 3) (by decide)

/-- C4: for a valid threshold pair, the multiset of pixels occupying any
accepted interval of any row after `sort_image` equals the multiset
occupying it before: no pixel is created, dropped or duplicated. -/
theorem interval_multiset_invariance (lower upper : Nat) (img : ColorImage)
    (method : SortBy) (hvalid : lower ≤ upper)
    (hlen : img.pixels.length = img.width * img.height)
    (yi : Nat) (hyi : yi < img.height) (iv : Nat × Nat)
    (hiv : iv ∈ into_intervals (rowBitmap (pixel_property method) lower upper
      img.pixels img.width yi)) :
    (listSlice (sort_image lower upper img method).pixels
        (yi * img.width + iv.1) (yi * img.width + iv.2) : Multiset Color32) =
      (listSlice img.pixels (yi * img.width + iv.1) (yi * img.width + iv.2) :
        Multiset Color32) := by
  rw [((sort_image_spec lower upper img method hlen).2 yi hyi).1 iv hiv]
  exact Multiset.coe_eq_coe.mpr (sortRun_perm _ _)

/-- C4 witness: thresholds `[0, 255]` on the 3×1 image with luminance keys
`[200, 50, 10]`, row 0, interval `[0, 3)`. -/
theorem interval_multiset_invariance_w :
    (listSlice (sort_image 0 255 imgC SortBy.Luminance).pixels
        (0 * imgC.width + (0, 3).1) (0 * imgC.width + (0, 3).2) :
          Multiset Color32) =
      (listSlice imgC.pixels (0 * imgC.width + (0, 3).1)
        (0 * imgC.width + (0, 3).2) : Multiset Color32) :=
  interval_multiset_invariance 0 255 imgC SortBy.Luminance (by decide)
    (by decide) 0 (by decide) (0, 3) (by decide)

/-- C5: the per-interval sort is stable: on any accepted interval and for
any fixed scalar-key value `k`, the subsequence of pixels whose key is `k`
is the same, in the same order, before and after `sort_image`; hence pixels
of equal key keep their relative order. -/
theorem interval_sort_stable (lower upper : Nat) (img : ColorImage)
    (method : SortBy) (hvalid : lower ≤ upper)
    (hlen : img.pixels.length = img.width * img.height)
    (yi : Nat) (hyi : yi < img.height) (iv : Nat × Nat)
    (hiv : iv ∈ into_intervals (rowBitmap (pixel_property method) lower upper
      img.pixels img.width yi))
    (k : Nat) :
    (listSlice (sort_image lower upper img method).pixels
        (yi * img.width + iv.1) (yi * img.width + iv.2)).filter
        (fun p => pixel_property method p == k) =
      (listSlice img.pixels (yi * img.width + iv.1)
        (yi * img.width + iv.2)).filter
        (fun p => pixel_property method p == k) := by
  rw [((sort_image_spec lower upper img method hlen).2 yi hyi).1 iv hiv]
  exact filter_sortRun _ k _

/-- C5 witness: thresholds `[0, 255]` on the 4×1 image with luminance keys
`[9, 5, 9, 5]` (two pixels of key 5, distinguishable by alpha), row 0,
interval `[0, 4)`, key value 5. -/
theorem interval_sort_stable_w :
    (listSlice (sort_image 0 255 imgD SortBy.Luminance).pixels
        (0 * imgD.width + (0, 4).1) (0 * imgD.width + (0, 4).2)).filter
        (fun p => pixel_property SortBy.Luminance p == 5) =
      (listSlice imgD.pixels (0 * imgD.width + (0, 4).1)
        (0 * imgD.width + (0, 4).2)).filter
        (fun p => pixel_property SortBy.Luminance p == 5) :=
  interval_sort_stable 0 255 imgD SortBy.Luminance (by decide) (by decide)
    0 (by decide) (0, 4) (by decide) 5

/-- C6: a pixel position whose scalar key lies outside the threshold range
(hence outside every accepted run) holds the same pixel after `sort_image`
as before, and a position inside an accepted run holds one of the original
whole RGBA pixels of that run — the alpha channel travels with its pixel and
is never altered or recombined. -/
theorem outside_unchanged_alpha_travels (lower upper : Nat) (img : ColorImage)
    (method : SortBy) (hvalid : lower ≤ upper)
    (hlen : img.pixels.length = img.width * img.height) :
    (∀ yi, yi < img.height → ∀ xo, xo < img.width →
      accepts lower upper (pixel_property method
        (img.pixels.getD (yi * img.width + xo) defaultPixel)) = false →
      (sort_image lower upper img method).pixels.getD (yi * img.width + xo)
          defaultPixel =
        img.pixels.getD (yi * img.width + xo) defaultPixel) ∧
    (∀ yi, yi < img.height →
      ∀ iv ∈ into_intervals (rowBitmap (pixel_property method) lower upper
        img.pixels img.width yi),
      ∀ xi, iv.1 ≤ xi → xi < iv.2 →
      ∃ q ∈ listSlice img.pixels (yi * img.width + iv.1)
          (yi * img.width + iv.2),
        (sort_image lower upper img method).pixels.getD (yi * img.width + xi)
            defaultPixel = q ∧
        ((sort_image lower upper img method).pixels.getD (yi * img.width + xi)
            defaultPixel).a = q.a) := by
  constructor
  · intro yi hyi xo hxo hacc
    exact ((sort_image_spec lower upper img method hlen).2 yi hyi).2 xo hxo
      hacc defaultPixel
  · intro yi hyi iv hiv xi h1 h2
    exact ⟨_, sort_image_getD_mem_slice lower upper img method hlen yi hyi iv
      hiv xi h1 h2, rfl, rfl⟩

/-- C6 witness: thresholds `[0, 50]` on the 3×1 image with luminance keys
`[10, 200, 5]`: position 1 is rejected and unchanged; position 0 lies in the
accepted run `[0, 1)` and holds a whole pixel of that run. -/
theorem outside_unchanged_alpha_travels_w :
    (sort_image 0 50 imgE SortBy.Luminance).pixels.getD (0 * imgE.width + 1)
        defaultPixel =
      imgE.pixels.getD (0 * imgE.width + 1) defaultPixel ∧
    ∃ q ∈ listSlice imgE.pixels (0 * imgE.width + (0, 1).1)
        (0 * imgE.width + (0, 1).2),
      (sort_image 0 50 imgE SortBy.Luminance).pixels.getD (0 * imgE.width + 0)
          defaultPixel = q ∧
      ((sort_image 0 50 imgE SortBy.Luminance).pixels.getD (0 * imgE.width + 0)
          defaultPixel).a = q.a :=
  ⟨(outside_unchanged_alpha_travels 0 50 imgE SortBy.Luminance (by decide)
      (by decide)).1 0 (by decide) 1 (by decide) (by decide),
    (outside_unchanged_alpha_travels 0 50 imgE SortBy.Luminance (by decide)
      (by decide)).2 0 (by decide) (0, 1) (by decide) 0 (by decide)
      (by decide)⟩

/-- C7: `sort_image` is idempotent: re-sorting an already-sorted buffer with
the same property and thresholds leaves it unchanged (in particular rows
already non-decreasing within their accepted runs are unchanged). -/
theorem sort_image_idempotent (lower upper : Nat) (img : ColorImage)
    (method : SortBy) (hvalid : lower ≤ upper)
    (hlen : img.pixels.length = img.width * img.height) :
    sort_image lower upper (sort_image lower upper img method) method =
      sort_image lower upper img method := by
  obtain ⟨hL1, hrows1⟩ := sort_image_spec lower upper img method hlen
  have hlenS : (sort_image lower upper img method).pixels.length =
      (sort_image lower upper img method).width *
        (sort_image lower upper img method).height := by
    rw [hL1, sort_image_width, sort_image_height, hlen]
  obtain ⟨hL2, hrows2⟩ :=
    sort_image_spec lower upper (sort_image lower upper img method) method hlenS
  refine colorImage_eq_of_pixels ?_ ?_ ?_
  · rfl
  · rfl
  apply ext_getD' _ _ defaultPixel
  · rw [hL2]
  · intro j hj
    rw [hL2] at hj
    have hjlen : j < img.width * img.height := by
      rw [hL1, hlen] at hj
      exact hj
    have hwpos : 0 < img.width := by
      rcases Nat.eq_zero_or_pos img.width with h0 | h0
      · rw [h0] at hjlen
        simp at hjlen
      · exact h0
    have hx : j % img.width < img.width := Nat.mod_lt _ hwpos
    have hj_eq : j = (j / img.width) * img.width + j % img.width := by
      have hdm := Nat.div_add_mod j img.width
      have hcm : img.width * (j / img.width) = (j / img.width) * img.width :=
        Nat.mul_comm _ _
      omega
    have hylt : j / img.width < img.height := Nat.div_lt_of_lt_mul hjlen
    by_cases hbit : accepts lower upper (pixel_property method
        ((sort_image lower upper img method).pixels.getD
          ((j / img.width) * img.width + j % img.width) defaultPixel)) = true
    · have hcov : (rowBitmap (pixel_property method) lower upper
          (sort_image lower upper img method).pixels img.width
            (j / img.width)).getD (j % img.width) false = true := by
        rw [rowBitmap_getD _ _ _ _ _ _ _ hx]
        exact hbit
      obtain ⟨iv, hiv, hxi1, hxi2⟩ :=
        (into_intervals_covered _ (j % img.width)).mpr hcov
      have hbm :=
        rowBitmap_sort_image lower upper img method hlen (j / img.width) hylt
      have hbnd := into_intervals_bounds _ iv hiv
      rw [length_rowBitmap] at hbnd
      have hs2 := (hrows2 (j / img.width) hylt).1 iv hiv
      rw [sort_image_width lower upper img method] at hs2
      have hiv' : iv ∈ into_intervals (rowBitmap (pixel_property method) lower
          upper img.pixels img.width (j / img.width)) := by
        rw [← hbm]
        exact hiv
      have hs1 := (hrows1 (j / img.width) hylt).1 iv hiv'
      have hsorted : List.Sorted (fun x y : Color32 =>
          pixel_property method x ≤ pixel_property method y)
          (listSlice (sort_image lower upper img method).pixels
            ((j / img.width) * img.width + iv.1)
            ((j / img.width) * img.width + iv.2)) := by
        rw [hs1]
        exact sortRun_sorted _ _
      have hs2' : listSlice (sort_image lower upper
          (sort_image lower upper img method) method).pixels
            ((j / img.width) * img.width + iv.1)
            ((j / img.width) * img.width + iv.2) =
          listSlice (sort_image lower upper img method).pixels
            ((j / img.width) * img.width + iv.1)
            ((j / img.width) * img.width + iv.2) := by
        rw [hs2, sortRun_eq_of_sorted _ _ hsorted]
      have hkidx : j % img.width - iv.1 <
          ((j / img.width) * img.width + iv.2) -
            ((j / img.width) * img.width + iv.1) := by
        omega
      calc (sort_image lower upper (sort_image lower upper img method)
              method).pixels.getD j defaultPixel
          = (listSlice (sort_image lower upper
              (sort_image lower upper img method) method).pixels
                ((j / img.width) * img.width + iv.1)
                ((j / img.width) * img.width + iv.2)).getD
              (j % img.width - iv.1) defaultPixel := by
            rw [getD_listSlice _ _ _ _ _ hkidx]
            congr 1
            omega
        _ = (listSlice (sort_image lower upper img method).pixels
              ((j / img.width) * img.width + iv.1)
              ((j / img.width) * img.width + iv.2)).getD
              (j % img.width - iv.1) defaultPixel := by
            rw [hs2']
        _ = (sort_image lower upper img method).pixels.getD j defaultPixel := by
            rw [getD_listSlice _ _ _ _ _ hkidx]
            congr 1
            omega
    · have hbitf := Bool.eq_false_iff.mpr hbit
      have hfix := (hrows2 (j / img.width) hylt).2 (j % img.width) hx hbitf
        defaultPixel
      rw [hj_eq]
      exact hfix

/-- C7 witness: idempotence at thresholds `[0, 255]` on the 3×1 image with
luminance keys `[200, 50, 10]`. -/
theorem sort_image_idempotent_w :
    sort_image 0 255 (sort_image 0 255 imgC SortBy.Luminance)
        SortBy.Luminance =
      sort_image 0 255 imgC SortBy.Luminance :=
  sort_image_idempotent 0 255 imgC SortBy.Luminance (by decide) (by decide)

end Porter
